import Mathlib

/-!
# Verification of the source_separation synthesis pipeline

Shallow embedding of `src/source_separation/synthesize.py` (functions `run`,
`validate`, `test_worker`, `WaveDataset`, `test_dir`) together with the
signal-transform and collation helpers the spec describes.  Audio samples are
modelled as exact rationals (`ℚ`), waveforms as `List ℚ`; the neural model and
the low-pass filter are opaque external collaborators and appear as function
parameters.
-/

namespace SourceSeparation

/-! ## Signal transforms -/

/-- Modelled from the spec: `preemphasis` is imported from
`pytorch_sound.utils.sound`, which is not part of this repository's sources.
The spec defines it as `y[0] = x[0]`, `y[n] = x[n] - a*x[n-1]` for `n > 0`
with a fixed coefficient `a`.  This is the recursion for `n > 0`, carrying
the previous input sample `prev`. -/
def preemphasisAux (a prev : ℚ) : List ℚ → List ℚ
  | [] => []
  | x :: xs => (x - a * prev) :: preemphasisAux a x xs

/-- Modelled from the spec: the pre-emphasis filter
`y[0] = x[0]`, `y[n] = x[n] - a*x[n-1]`. -/
def preemphasis (a : ℚ) : List ℚ → List ℚ
  | [] => []
  | x :: xs => x :: preemphasisAux a x xs

/-- Modelled from the spec: `inv_preemphasis` is imported from
`pytorch_sound.utils.sound`, which is not part of this repository's sources.
The spec defines it as the inverse recurrence `x[0] = y[0]`,
`x[n] = y[n] + a*x[n-1]`.  This is the recursion for `n > 0`, carrying the
previously reconstructed output sample `prev`. -/
def inv_preemphasisAux (a prev : ℚ) : List ℚ → List ℚ
  | [] => []
  | y :: ys => (y + a * prev) :: inv_preemphasisAux a (y + a * prev) ys

/-- Modelled from the spec: the de-emphasis filter
`x[0] = y[0]`, `x[n] = y[n] + a*x[n-1]`. -/
def inv_preemphasis (a : ℚ) : List ℚ → List ℚ
  | [] => []
  | y :: ys => y :: inv_preemphasisAux a y ys

theorem inv_preemphasisAux_preemphasisAux (a prev : ℚ) (xs : List ℚ) :
    inv_preemphasisAux a prev (preemphasisAux a prev xs) = xs := by
  induction xs generalizing prev with
  | nil => rfl
  | cons x xs ih =>
    simp only [preemphasisAux, inv_preemphasisAux, sub_add_cancel,
      List.cons.injEq, true_and]
    exact ih x

theorem preemphasisAux_length (a prev : ℚ) (xs : List ℚ) :
    (preemphasisAux a prev xs).length = xs.length := by
  induction xs generalizing prev with
  | nil => rfl
  | cons x xs ih => simpa [preemphasisAux] using ih x

theorem preemphasis_length (a : ℚ) (xs : List ℚ) :
    (preemphasis a xs).length = xs.length := by
  cases xs with
  | nil => rfl
  | cons x xs => simp [preemphasis, preemphasisAux_length]

theorem inv_preemphasisAux_length (a prev : ℚ) (ys : List ℚ) :
    (inv_preemphasisAux a prev ys).length = ys.length := by
  induction ys generalizing prev with
  | nil => rfl
  | cons y ys ih => simpa [inv_preemphasisAux] using ih (y + a * prev)

theorem inv_preemphasis_length (a : ℚ) (ys : List ℚ) :
    (inv_preemphasis a ys).length = ys.length := by
  cases ys with
  | nil => rfl
  | cons y ys => simp [inv_preemphasis, inv_preemphasisAux_length]

/-- C1: for every finite-length waveform `x` and coefficient `a` with
`0 < a < 1`, `de_emphasis (pre_emphasis x) = x` — the round trip is exact over
the rationals, which implies the floating-point-tolerance statement. -/
theorem inv_preemphasis_preemphasis (a : ℚ) (h0 : 0 < a) (h1 : a < 1)
    (x : List ℚ) : inv_preemphasis a (preemphasis a x) = x := by
  cases x with
  | nil => rfl
  | cons x xs =>
    simp only [preemphasis, inv_preemphasis]
    exact congrArg (x :: ·) (inv_preemphasisAux_preemphasisAux a x xs)

/-- C1 witness: the round trip at the spec's §8 scenario, coefficient
`a = 0.97` and input `[0.1, 0.2, -0.1, 0.05]`. -/
theorem inv_preemphasis_preemphasis_witness :
    inv_preemphasis (97/100) (preemphasis (97/100)
      [1/10, 1/5, -1/10, 1/20]) = [1/10, 1/5, -1/10, 1/20] :=
  inv_preemphasis_preemphasis (97/100) (by norm_num) (by norm_num) _

/-! ## Clipping and the single-file pipeline (`run`) -/

/-- `numpy.ndarray.clip(-1., 1.)` on one sample: clamp into `[-1, 1]`. -/
def clip1 (x : ℚ) : ℚ := max (-1) (min 1 x)

theorem clip1_mem_Icc (x : ℚ) : -1 ≤ clip1 x ∧ clip1 x ≤ 1 := by
  constructor
  · exact le_max_left _ _
  · exact max_le (by norm_num) (min_le_left _ _)

/-- Post-processing of the single-file mode `run`
(src/source_separation/synthesize.py lines 50-58): the raw model output
`out_wav` is low-passed when `lowpass_freq` is nonzero (Python integer
truthiness), then de-emphasized and clipped to `[-1, 1]` at the write call.
The external `lowpass` collaborator is the opaque parameter `lp`. -/
def run_output (a : ℚ) (lp : List ℚ → List ℚ) (lowpass_freq : ℕ)
    (out_wav : List ℚ) : List ℚ :=
  let o := if lowpass_freq ≠ 0 then lp out_wav else out_wav
  (inv_preemphasis a o).map clip1

/-- Modelled from the spec: the order of post-processing steps the spec's
§4.4 claims for the single-file mode — de-emphasis (step 2) applied to the
model output first, then the optional low-pass (step 3), then clipping
(step 4).  Written for comparison with `run_output`, which embeds the
source. -/
def run_output_claimed (a : ℚ) (lp : List ℚ → List ℚ) (lowpass_freq : ℕ)
    (out_wav : List ℚ) : List ℚ :=
  let d := inv_preemphasis a out_wav
  let o := if lowpass_freq ≠ 0 then lp d else d
  o.map clip1

/-- A concrete stand-in for the opaque low-pass collaborator, used to probe
the order in which `run` composes the post-processing steps: it offsets each
sample by `1/4`. -/
def lp_probe (l : List ℚ) : List ℚ := l.map (fun v => v + 1/4)

/-- C5 counterexample: with coefficient `0.97`, a configured (nonzero)
cutoff and model output `[0, 0]`, the pipeline of the source applies the
low-pass before de-emphasis and so differs from the order the claim states
(de-emphasis before low-pass). -/
theorem run_output_order_cex :
    run_output (97/100) lp_probe 1 [0, 0] ≠
      run_output_claimed (97/100) lp_probe 1 [0, 0] := by
  norm_num [run_output, run_output_claimed, lp_probe, inv_preemphasis,
    inv_preemphasisAux, clip1, min_def, max_def]

/-- C5 amended: in the single-file mode, the optional low-pass — applied
only when a nonzero cutoff frequency was configured — is applied to the
model output *before* de-emphasis, and clipping comes last before
persisting: the persisted waveform is the clip of the de-emphasis of the
(optionally low-passed) model output, and every persisted sample lies in
`[-1, 1]`. -/
theorem run_output_order :
    ∀ (a : ℚ) (lp : List ℚ → List ℚ) (lowpass_freq : ℕ) (out_wav : List ℚ),
      run_output a lp lowpass_freq out_wav =
        (inv_preemphasis a
          (if lowpass_freq ≠ 0 then lp out_wav else out_wav)).map clip1 ∧
      run_output a lp 0 out_wav = (inv_preemphasis a out_wav).map clip1 ∧
      ∀ s ∈ run_output a lp lowpass_freq out_wav, -1 ≤ s ∧ s ≤ 1 := by
  intro a lp lowpass_freq out_wav
  refine ⟨rfl, by simp [run_output], ?_⟩
  intro s hs
  simp only [run_output, List.mem_map] at hs
  obtain ⟨t, -, rfl⟩ := hs
  exact clip1_mem_Icc t

/-! ## The directory-mode worker (`test_worker`) -/

/-- The waveform `test_worker` persists
(src/source_separation/synthesize.py lines 115-117): the padded model
output for one item is truncated to the item's recorded true length `l`
and then de-emphasized.  `.squeeze()` is the identity on a 1-D buffer.
No clipping is applied. -/
def test_worker_wave (a : ℚ) (out_wav : List ℚ) (l : ℕ) : List ℚ :=
  inv_preemphasis a (out_wav.take l)

theorem test_worker_wave_length (a : ℚ) (out_wav : List ℚ) (l : ℕ) :
    (test_worker_wave a out_wav l).length = min l out_wav.length := by
  simp [test_worker_wave, inv_preemphasis_length]

/-- C3 counterexample: the directory-mode worker persists waveforms without
clamping — with coefficient `0.97`, a model output `[2]` of true length 1
is persisted as `[2]`, whose sample lies outside `[-1, 1]`. -/
theorem test_worker_wave_not_clipped :
    ¬ ∀ s ∈ test_worker_wave (97/100) [2] 1, -1 ≤ s ∧ s ≤ 1 := by
  decide

/-- C3 amended: only the single-file mode output and the validation-mode
predicted output are clamped into `[-1, 1]` before persisting (clamped —
out-of-range values are replaced by the nearest bound, in-range values are
unchanged, never wrapped or scaled); the directory-mode worker and the
validation-mode noisy and clean writes persist their samples without
clamping and can persist samples outside `[-1, 1]`. -/
theorem clipping_per_mode :
    ∀ (a x : ℚ) (lp : List ℚ → List ℚ) (freq : ℕ) (out ch : List ℚ),
      (∀ s ∈ run_output a lp freq out, -1 ≤ s ∧ s ≤ 1) ∧
      (∀ s ∈ (inv_preemphasis a ch).map clip1, -1 ≤ s ∧ s ≤ 1) ∧
      (x < -1 → clip1 x = -1) ∧ (1 < x → clip1 x = 1) ∧
      (-1 ≤ x → x ≤ 1 → clip1 x = x) ∧
      (∃ s ∈ test_worker_wave a [2] 1, 1 < s) ∧
      (∃ s ∈ inv_preemphasis a [2], 1 < s) := by
  intro a x lp freq out ch
  refine ⟨fun s hs => ?_, fun s hs => ?_, fun h => ?_, fun h => ?_,
    fun h h' => ?_, ?_, ?_⟩
  · simp only [run_output, List.mem_map] at hs
    obtain ⟨t, -, rfl⟩ := hs
    exact clip1_mem_Icc t
  · simp only [List.mem_map] at hs
    obtain ⟨t, -, rfl⟩ := hs
    exact clip1_mem_Icc t
  · have : min 1 x = x := min_eq_right (le_trans h.le (by norm_num))
    simp [clip1, this, max_eq_left h.le]
  · simp [clip1, min_eq_left h.le, max_eq_right, le_trans (by norm_num : (-1:ℚ) ≤ 1) h.le]
  · simp [clip1, min_eq_right h', max_eq_right h]
  · exact ⟨2, by simp [test_worker_wave, inv_preemphasis], by norm_num⟩
  · exact ⟨2, by simp [inv_preemphasis], by norm_num⟩

/-! ## POSIX path operations used by `test_worker`

`test_worker` builds its output path with `os.path.dirname`,
`str.replace`, `os.path.join` and `os.path.basename`.  These are modelled
below for POSIX paths as the source uses them: a nonempty search pattern
for `replace`, and paths whose directory part is not the filesystem
root. -/

/-- `os.path.basename` on characters: everything after the last `/`. -/
def basenameChars (cs : List Char) : List Char :=
  (cs.reverse.takeWhile (fun c => c ≠ '/')).reverse

/-- `os.path.dirname` on characters: everything before the last `/`
(empty when there is no `/`). -/
def dirnameChars (cs : List Char) : List Char :=
  ((cs.reverse.dropWhile (fun c => c ≠ '/')).drop 1).reverse

/-- `str.replace` on characters, for a nonempty pattern: every
non-overlapping occurrence of `pat`, scanned left to right, is replaced by
`rep`.  `fuel` bounds the recursion; `fuel ≥ length of the text` is
enough. -/
def replaceChars (pat rep : List Char) : ℕ → List Char → List Char
  | 0, s => s
  | _ + 1, [] => []
  | fuel + 1, c :: cs =>
    if pat ≠ [] ∧ pat.isPrefixOf (c :: cs) then
      rep ++ replaceChars pat rep fuel ((c :: cs).drop pat.length)
    else c :: replaceChars pat rep fuel cs

def basename (p : String) : String := String.mk (basenameChars p.data)

def dirname (p : String) : String := String.mk (dirnameChars p.data)

def strReplace (s pat rep : String) : String :=
  String.mk (replaceChars pat.data rep.data s.data.length s.data)

/-- `os.path.join` of two POSIX components: an absolute second component
discards the first; otherwise the components are joined with exactly one
separator. -/
def pjoin (a b : String) : String :=
  if b.data.head? = some '/' then b
  else if a = "" then b
  else if a.data.getLast? = some '/' then a ++ b
  else a ++ "/" ++ b

/-- The output path `test_worker` writes to
(src/source_separation/synthesize.py lines 111-114):
`sub_dir = os.path.dirname(file_path).replace(in_dir, '')`,
`file_out_dir = os.path.join(out_dir, sub_dir)`, and the final path joins
`file_out_dir` with `os.path.basename(file_path)`. -/
def test_worker_path (file_path in_dir out_dir : String) : String :=
  let sub_dir := strReplace (dirname file_path) in_dir ""
  let file_out_dir := pjoin out_dir sub_dir
  pjoin file_out_dir (basename file_path)

/-- C6: for the input file `in/sub/a.wav` discovered under `in_dir = "in"`
with `out_dir = "out"`, `test_worker` writes to the absolute path
`/sub/a.wav` — `str.replace` leaves the leading separator of the relative
sub-path in place, and `os.path.join` then discards `out_dir` — rather
than to the mirrored path `out/sub/a.wav` the claim states. -/
theorem test_worker_path_discards_out_dir :
    test_worker_path "in/sub/a.wav" "in" "out" = "/sub/a.wav" ∧
      test_worker_path "in/sub/a.wav" "in" "out" ≠ "out/sub/a.wav" := by
  decide

/-! ## Variable-length batch collation and the directory mode (`test_dir`)

`WaveDataset.__getitem__` returns `[preemphasis(wav), np.array([len(wav)])]`
and the `DataLoader` groups consecutive items (shuffle=False) into batches of
`batch_size`, collated by `SpeechDataLoader.pad_collate_fn`. -/

/-- Modelled from the spec: `SpeechDataLoader.pad_collate_fn` is imported
from `pytorch_sound.data.dataset`, which is not part of this repository's
sources.  Per the spec (§4.2), it turns `N` dataset items — each a waveform
with its recorded true length — into a dense batch: every waveform is
right-zero-padded to the maximum length `L`, and the true lengths are
collected in order. -/
def pad_collate (items : List (List ℚ × ℕ)) : List (List ℚ) × List ℕ :=
  let L := (items.map (fun it => it.1.length)).foldr max 0
  (items.map (fun it => it.1 ++ List.replicate (L - it.1.length) (0 : ℚ)),
   items.map (fun it => it.2))

/-- Consecutive chunks of size `bs` (the `DataLoader` batching with
`shuffle=False`); `fuel ≥ length of the list` is enough when `0 < bs`. -/
def chunksAux (bs : ℕ) : ℕ → List α → List (List α)
  | 0, _ => []
  | _ + 1, [] => []
  | fuel + 1, x :: xs => (x :: xs).take bs :: chunksAux bs fuel ((x :: xs).drop bs)

def chunks (bs : ℕ) (l : List α) : List (List α) := chunksAux bs l.length l

theorem chunksAux_eq_of_le (bs : ℕ) (hbs : 0 < bs) :
    ∀ (f1 : ℕ) (f2 : ℕ) (l : List α), l.length ≤ f1 → l.length ≤ f2 →
      chunksAux bs f1 l = chunksAux bs f2 l := by
  intro f1
  induction f1 with
  | zero =>
    intro f2 l h1 h2
    have : l = [] := List.length_eq_zero.mp (Nat.le_zero.mp h1)
    subst this
    cases f2 <;> rfl
  | succ f1 ih =>
    intro f2 l h1 h2
    cases l with
    | nil => cases f2 <;> rfl
    | cons x xs =>
      have h2' : xs.length + 1 ≤ f2 := by simpa using h2
      obtain ⟨f2', rfl⟩ : ∃ f2', f2 = f2' + 1 := ⟨f2 - 1, by omega⟩
      simp only [chunksAux]
      have hd1 : ((x :: xs).drop bs).length ≤ f1 := by
        simp only [List.length_drop, List.length_cons]
        simp only [List.length_cons] at h1
        omega
      have hd2 : ((x :: xs).drop bs).length ≤ f2' := by
        simp only [List.length_drop, List.length_cons]
        simp only [List.length_cons] at h2
        omega
      exact congrArg _ (ih f2' _ hd1 hd2)

theorem chunks_nil (bs : ℕ) : chunks (α := α) bs [] = [] := rfl

theorem chunks_cons (bs : ℕ) (hbs : 0 < bs) (x : α) (xs : List α) :
    chunks bs (x :: xs) =
      (x :: xs).take bs :: chunks bs ((x :: xs).drop bs) := by
  show chunksAux bs (xs.length + 1) (x :: xs) = _
  simp only [chunksAux]
  refine congrArg _ (chunksAux_eq_of_le bs hbs _ _ _ ?_ ?_)
  · simp only [List.length_drop, List.length_cons]
    omega
  · exact le_refl _

/-- One batch of `test_dir` (src/source_separation/synthesize.py lines
153-168): the chunk's waveforms are pre-emphasized and collated
(`WaveDataset.__getitem__` plus `pad_collate_fn`), the opaque `model` runs
on the padded rows, and each padded output row is zipped with its source
path and true length and post-processed by `test_worker`. -/
def test_dir_batch (a : ℚ) (model : List (List ℚ) → List (List ℚ))
    (in_dir out_dir : String) (pchunk : List String)
    (wchunk : List (List ℚ)) : List (String × List ℚ) :=
  let items := wchunk.map (fun w => (preemphasis a w, w.length))
  let rows := (pad_collate items).1
  let lens := (pad_collate items).2
  let outs := model rows
  (outs.zip (pchunk.zip lens)).map
    (fun ol => (test_worker_path ol.2.1 in_dir out_dir,
      test_worker_wave a ol.1 ol.2.2))

/-- The full directory mode as the list of (destination path, persisted
waveform) pairs it produces, in dispatch order: `ws` are the decoded
waveforms of the discovered files `paths`, processed in consecutive
batches of `bs` (src/source_separation/synthesize.py lines 134-168). -/
def test_dir_items (a : ℚ) (model : List (List ℚ) → List (List ℚ))
    (bs : ℕ) (in_dir out_dir : String) (paths : List String)
    (ws : List (List ℚ)) : List (String × List ℚ) :=
  (((chunks bs ws).zip (chunks bs paths)).map
    (fun c => test_dir_batch a model in_dir out_dir c.2 c.1)).join

theorem le_foldr_max (l : List ℕ) (x : ℕ) (h : x ∈ l) :
    x ≤ l.foldr max 0 := by
  induction l with
  | nil => cases h
  | cons y l ih =>
    rcases List.mem_cons.mp h with rfl | h'
    · exact le_max_left _ _
    · exact le_trans (ih h') (le_max_right _ _)

theorem map_get_of_map_eq {α β γ : Type} {f : α → γ} {g : β → γ}
    {l1 : List α} {l2 : List β} (h : l1.map f = l2.map g) (n : ℕ)
    (h1 : n < l1.length) (h2 : n < l2.length) :
    f (l1.get ⟨n, h1⟩) = g (l2.get ⟨n, h2⟩) := by
  have e1 := List.get_map f (l := l1) (n := ⟨n, by simpa using h1⟩)
  have e2 := List.get_map g (l := l2) (n := ⟨n, by simpa using h2⟩)
  rw [← e1, ← e2]
  exact List.get_of_eq h _

/-- The post-processing zip of one `test_dir` batch, abstracted over the
model-output rows `outs`: when every recorded length is at most the length
of its padded output row, each item keeps its own path and its recorded
length. -/
theorem worker_zip_spec (a : ℚ) (in_dir out_dir : String) :
    ∀ (outs : List (List ℚ)) (pch : List String) (lens : List ℕ),
      pch.length = lens.length → outs.length = lens.length →
      (∀ (n : ℕ) (h1 : n < lens.length) (h2 : n < outs.length),
        lens.get ⟨n, h1⟩ ≤ (outs.get ⟨n, h2⟩).length) →
      ((outs.zip (pch.zip lens)).map
          (fun ol => (test_worker_path ol.2.1 in_dir out_dir,
            test_worker_wave a ol.1 ol.2.2))).map
          (fun it => (it.1, it.2.length)) =
        (pch.zip lens).map
          (fun pl => (test_worker_path pl.1 in_dir out_dir, pl.2)) := by
  intro outs
  induction outs with
  | nil =>
    intro pch lens hp ho _
    have : lens = [] := List.length_eq_zero.mp (by simpa using ho.symm)
    subst this
    simp
  | cons o os ih =>
    intro pch lens hp ho hpt
    cases lens with
    | nil => simp at ho
    | cons l ls =>
      cases pch with
      | nil => simp at hp
      | cons p ps =>
        simp only [List.zip_cons_cons, List.map_cons, List.cons.injEq]
        constructor
        · refine Prod.ext rfl ?_
          show (test_worker_wave a o l).length = l
          rw [test_worker_wave_length]
          exact Nat.min_eq_left (hpt 0 (by simp) (by simp))
        · refine ih ps ls (by simpa using hp) (by simpa using ho) ?_
          intro n h1 h2
          exact hpt (n + 1) (by simpa using Nat.succ_lt_succ h1)
            (by simpa using Nat.succ_lt_succ h2)

theorem test_dir_batch_spec (a : ℚ) (model : List (List ℚ) → List (List ℚ))
    (in_dir out_dir : String) (pchunk : List String)
    (wchunk : List (List ℚ))
    (hm : ∀ b, (model b).map List.length = b.map List.length)
    (hp : pchunk.length = wchunk.length) :
    (test_dir_batch a model in_dir out_dir pchunk wchunk).map
        (fun it => (it.1, it.2.length)) =
      (pchunk.zip (wchunk.map List.length)).map
        (fun pl => (test_worker_path pl.1 in_dir out_dir, pl.2)) := by
  have hmodlen : ∀ (l : List (List ℚ)), (model l).length = l.length := by
    intro l
    have := congrArg List.length (hm l)
    simpa using this
  have hlens : ((wchunk.map (fun w => ((preemphasis a w, w.length) :
      List ℚ × ℕ))).map (fun it => it.2)) = wchunk.map List.length := by
    simp [List.map_map]
  simp only [test_dir_batch, pad_collate]
  rw [hlens]
  refine worker_zip_spec a in_dir out_dir _ _ _ (by simp [hp]) (by simp [hmodlen]) ?_
  intro n h1 h2
  rw [map_get_of_map_eq (hm _) n h2 (by simpa [hmodlen] using h2)]
  simp only [List.get_map, List.map_map, Function.comp_apply, List.length_append,
    List.length_replicate, preemphasis_length]
  exact Nat.le_add_right _ _

/-- Closed form of the directory mode's outcome, up to the opaque model's
sample values: item `i` is written to the path mirrored from the `i`-th
discovered file, with the length of the `i`-th input waveform. -/
theorem test_dir_items_spec (a : ℚ) (model : List (List ℚ) → List (List ℚ))
    (bs : ℕ) (in_dir out_dir : String)
    (hbs : 0 < bs)
    (hm : ∀ b, (model b).map List.length = b.map List.length)
    (ws : List (List ℚ)) (paths : List String)
    (hlen : paths.length = ws.length) :
    (test_dir_items a model bs in_dir out_dir paths ws).map
        (fun it => (it.1, it.2.length)) =
      (paths.zip (ws.map List.length)).map
        (fun pl => (test_worker_path pl.1 in_dir out_dir, pl.2)) := by
  cases hw : ws with
  | nil =>
    have : paths = [] := List.length_eq_zero.mp (by simpa [hw] using hlen)
    subst this
    simp [test_dir_items, chunks_nil]
  | cons w ws' =>
    have hpne : paths ≠ [] := by
      intro h
      rw [h] at hlen
      simp [hw] at hlen
    obtain ⟨p, ps', rfl⟩ : ∃ p ps', paths = p :: ps' := by
      cases paths with
      | nil => exact absurd rfl hpne
      | cons p ps' => exact ⟨p, ps', rfl⟩
    rw [← hw]
    have hw1 : ws = w :: ws' := hw
    have hcw : chunks bs ws = ws.take bs :: chunks bs (ws.drop bs) := by
      rw [hw1]
      exact chunks_cons bs hbs w ws'
    have hcp : chunks bs (p :: ps') =
        (p :: ps').take bs :: chunks bs ((p :: ps').drop bs) :=
      chunks_cons bs hbs p ps'
    have hrec := test_dir_items_spec a model bs in_dir out_dir hbs hm
      (ws.drop bs) ((p :: ps').drop bs)
      (by simp [hlen])
    have hbatch := test_dir_batch_spec a model in_dir out_dir
      ((p :: ps').take bs) (ws.take bs) hm
      (by simp [hlen])
    simp only [test_dir_items, hcw, hcp, List.zip_cons_cons, List.map_cons,
      List.join_cons, List.map_append] at *
    rw [hbatch, hrec]
    have hsplit : (p :: ps').zip (ws.map List.length) =
        ((p :: ps').take bs).zip ((ws.take bs).map List.length) ++
          ((p :: ps').drop bs).zip ((ws.drop bs).map List.length) := by
      rw [List.map_take, List.map_drop]
      rw [← List.zip_append (by simp [hlen])]
      rw [List.take_append_drop, List.take_append_drop]
    rw [hsplit, List.map_append]
termination_by ws.length
decreasing_by
  simp only [List.length_drop]
  rw [hw1]
  simp only [List.length_cons]
  omega

theorem zip_map_fst {α β γ : Type} (f : α → γ) :
    ∀ (l1 : List α) (l2 : List β), l1.length = l2.length →
      (l1.zip l2).map (fun pl => f pl.1) = l1.map f := by
  intro l1
  induction l1 with
  | nil => intro l2 _; simp
  | cons x xs ih =>
    intro l2 h
    cases l2 with
    | nil => simp at h
    | cons y ys => simp [ih ys (by simpa using h)]

/-- C2: in directory batch mode, the waveform persisted for the `i`-th
input has length exactly the length of the `i`-th input waveform: the
padded model output is truncated to the item's recorded true length before
de-emphasis and writing.  The opaque model is assumed, per its contract, to
preserve the shape of the batch. -/
theorem test_dir_length_preservation (a : ℚ)
    (model : List (List ℚ) → List (List ℚ)) (bs : ℕ)
    (in_dir out_dir : String) (paths : List String) (ws : List (List ℚ))
    (hbs : 0 < bs)
    (hm : ∀ b, (model b).map List.length = b.map List.length)
    (hlen : paths.length = ws.length) (i : ℕ) (hi : i < ws.length) :
    ((test_dir_items a model bs in_dir out_dir paths ws).getD i
        ("", [])).2.length = (ws.getD i []).length := by
  have h := test_dir_items_spec a model bs in_dir out_dir hbs hm ws paths hlen
  have hTlen : (test_dir_items a model bs in_dir out_dir paths ws).length
      = ws.length := by
    have := congrArg List.length h
    simpa [hlen] using this
  have hiT : i < (test_dir_items a model bs in_dir out_dir paths ws).length := by
    rw [hTlen]; exact hi
  have hiZ : i < (paths.zip (ws.map List.length)).length := by
    simpa [hlen] using hi
  have hpt := map_get_of_map_eq h i hiT hiZ
  have h2 := congrArg Prod.snd hpt
  simp only [List.get_zip, List.get_map] at h2
  rw [List.getD_eq_get _ _ hiT, List.getD_eq_get _ _ hi]
  exact h2

/-- C2 witness: three files in two batches of size 2 with an identity
model; the waveform written for input 1 (of length 2) has length 2. -/
theorem test_dir_length_preservation_witness :
    ((test_dir_items (97/100) (fun b => b) 2 "in" "out"
        ["in/x.wav", "in/y.wav", "in/z.wav"]
        [[1], [2, 3], [4]]).getD 1 ("", [])).2.length =
      (([[1], [2, 3], [4]] : List (List ℚ)).getD 1 []).length :=
  test_dir_length_preservation (97/100) (fun b => b) 2 "in" "out"
    ["in/x.wav", "in/y.wav", "in/z.wav"] [[1], [2, 3], [4]]
    (by norm_num) (fun b => rfl) rfl 1 (by norm_num)

/-- C4: collating the `N` (pre-emphasized) waveforms of the directory mode
yields `N` rows and `N` recorded lengths; row `i` is the `i`-th waveform
right-zero-padded to the maximum length `L`, every row has length `L`, the
`i`-th recorded length is the `i`-th input's true length, and the `i`-th
model output is re-associated with the `i`-th discovered file's destination
path. -/
theorem test_dir_collation (a : ℚ)
    (model : List (List ℚ) → List (List ℚ)) (bs : ℕ)
    (in_dir out_dir : String) (paths : List String) (ws : List (List ℚ))
    (hbs : 0 < bs)
    (hm : ∀ b, (model b).map List.length = b.map List.length)
    (hlen : paths.length = ws.length) (i : ℕ) (hi : i < ws.length) :
    (pad_collate (ws.map (fun w => (preemphasis a w, w.length)))).1.length
        = ws.length ∧
    (pad_collate (ws.map (fun w => (preemphasis a w, w.length)))).2.length
        = ws.length ∧
    (pad_collate (ws.map (fun w => (preemphasis a w, w.length)))).1.getD i []
        = preemphasis a (ws.getD i []) ++
          List.replicate ((ws.map List.length).foldr max 0 -
            (ws.getD i []).length) 0 ∧
    ((pad_collate (ws.map (fun w => (preemphasis a w, w.length)))).1.getD
        i []).length = (ws.map List.length).foldr max 0 ∧
    (pad_collate (ws.map (fun w => (preemphasis a w, w.length)))).2.getD i 0
        = (ws.getD i []).length ∧
    (test_dir_items a model bs in_dir out_dir paths ws).map Prod.fst
        = paths.map (fun p => test_worker_path p in_dir out_dir) := by
  have hL : ws.map (fun w => (preemphasis a w).length) = ws.map List.length := by
    simp [preemphasis_length]
  have hrow1 : i < (ws.map (fun w => ((preemphasis a w, w.length) :
      List ℚ × ℕ))).length := by simpa using hi
  have hwle : (ws.get ⟨i, hi⟩).length ≤ (ws.map List.length).foldr max 0 := by
    refine le_foldr_max _ _ ?_
    exact List.mem_map.mpr ⟨ws.get ⟨i, hi⟩, List.get_mem ws i hi, rfl⟩
  refine ⟨by simp [pad_collate], by simp [pad_collate], ?_, ?_, ?_, ?_⟩
  · rw [List.getD_eq_get _ _ (by simpa [pad_collate] using hi),
      List.getD_eq_get _ _ hi]
    simp [pad_collate, List.get_map, List.map_map, Function.comp_def,
      preemphasis_length]
  · rw [List.getD_eq_get _ _ (by simpa [pad_collate] using hi)]
    simp only [pad_collate, List.get_map, List.map_map, Function.comp_def,
      List.length_append, List.length_replicate, preemphasis_length]
    exact Nat.add_sub_cancel' hwle
  · rw [List.getD_eq_get _ _ (by simpa [pad_collate] using hi),
      List.getD_eq_get _ _ hi]
    simp [pad_collate, List.get_map, List.map_map]
  · have h := test_dir_items_spec a model bs in_dir out_dir hbs hm ws paths hlen
    have h6 := congrArg (List.map Prod.fst) h
    simp only [List.map_map] at h6
    have hz : (paths.zip (ws.map List.length)).map
        (fun pl => test_worker_path pl.1 in_dir out_dir)
          = paths.map (fun p => test_worker_path p in_dir out_dir) :=
      zip_map_fst (fun p => test_worker_path p in_dir out_dir) paths
        (ws.map List.length) (by simpa using hlen)
    simpa [Function.comp_def, hz] using h6

/-- C4 witness: a one-file batch with an identity model — the written item
is associated with the mirrored destination path of the one discovered
file. -/
theorem test_dir_collation_witness :
    (test_dir_items (97/100) (fun b => b) 1 "in" "out" ["in/x.wav"]
        [[(1 : ℚ), 2]]).map Prod.fst =
      ["in/x.wav"].map (fun p => test_worker_path p "in" "out") :=
  (test_dir_collation (97/100) (fun b => b) 1 "in" "out" ["in/x.wav"]
    [[(1 : ℚ), 2]] (by norm_num) (fun b => rfl) rfl 0
    (by norm_num)).2.2.2.2.2

/-! ## Validation mode (`validate`)

The first loop of `validate` pre-emphasizes each noisy batch, runs the model
and accumulates `(clean_hat, noise, clean)` batch triples; the second loop
writes three files per item under sequential global indices. -/

/-- Python's `zip` of three sequences: truncates to the shortest. -/
def zip3 (l1 : List α) (l2 : List β) (l3 : List γ) : List (α × β × γ) :=
  l1.zip (l2.zip l3)

/-- The accumulation loop of `validate`
(src/source_separation/synthesize.py lines 79-90): for every
`(noise, clean)` batch of the loader, the noisy batch is pre-emphasized,
the opaque `model` produces `clean_hat`, and the write loop later zips the
three per item into `(clean_hat, noise, clean)` triples. -/
def validate_processed (a : ℚ) (model : List (List ℚ) → List (List ℚ))
    (data : List (List (List ℚ) × List (List ℚ))) :
    List (List (List ℚ × List ℚ × List ℚ)) :=
  data.map (fun nc =>
    let noisep := nc.1.map (preemphasis a)
    zip3 (model noisep) noisep nc.2)

/-- The three writes `validate` performs for the item at position `i` of
batch `b` (src/source_separation/synthesize.py lines 94-104), in call
order: the raw clean waveform, the de-emphasized noisy waveform, and the
de-emphasized clipped prediction, each under the sequential global index
`b * bs + i`.  An item is the triple `(clean_hat, noise, clean)`. -/
def validate_item_writes (a : ℚ) (out_dir : String) (bs b i : ℕ)
    (item : List ℚ × List ℚ × List ℚ) : List (String × List ℚ) :=
  [(pjoin out_dir (Nat.repr (b * bs + i) ++ "_clean.wav"), item.2.2),
   (pjoin out_dir (Nat.repr (b * bs + i) ++ "_noise.wav"),
     inv_preemphasis a item.2.1),
   (pjoin out_dir (Nat.repr (b * bs + i) ++ "_pred.wav"),
     (inv_preemphasis a item.1).map clip1)]

/-- The inner write loop of `validate` over one batch, with `i` the
enumeration counter. -/
def validate_batch_writes (a : ℚ) (out_dir : String) (bs b : ℕ) :
    ℕ → List (List ℚ × List ℚ × List ℚ) → List (String × List ℚ)
  | _, [] => []
  | i, item :: rest =>
    validate_item_writes a out_dir bs b i item ++
      validate_batch_writes a out_dir bs b (i + 1) rest

/-- The outer write loop of `validate` over all accumulated batches, with
`b` the batch enumeration counter. -/
def validate_writes (a : ℚ) (out_dir : String) (bs : ℕ) :
    ℕ → List (List (List ℚ × List ℚ × List ℚ)) → List (String × List ℚ)
  | _, [] => []
  | b, batch :: rest =>
    validate_batch_writes a out_dir bs b 0 batch ++
      validate_writes a out_dir bs (b + 1) rest

theorem mem_validate_batch_writes (a : ℚ) (out_dir : String) (bs b : ℕ)
    (d : List ℚ × List ℚ × List ℚ) :
    ∀ (batch : List (List ℚ × List ℚ × List ℚ)) (i0 i : ℕ),
      i < batch.length →
      ∀ pw ∈ validate_item_writes a out_dir bs b (i0 + i) (batch.getD i d),
        pw ∈ validate_batch_writes a out_dir bs b i0 batch := by
  intro batch
  induction batch with
  | nil => intro i0 i hi; cases (Nat.not_lt_zero i) hi
  | cons item rest ih =>
    intro i0 i hi pw hpw
    cases i with
    | zero =>
      refine List.mem_append_left _ ?_
      simpa using hpw
    | succ i' =>
      refine List.mem_append_right _ ?_
      refine ih (i0 + 1) i' (by simpa using Nat.lt_of_succ_lt_succ hi) pw ?_
      have : i0 + 1 + i' = i0 + (i' + 1) := by omega
      rw [this]
      simpa using hpw

theorem mem_validate_writes (a : ℚ) (out_dir : String) (bs : ℕ) :
    ∀ (batches : List (List (List ℚ × List ℚ × List ℚ))) (b0 b : ℕ),
      b < batches.length →
      ∀ pw ∈ validate_batch_writes a out_dir bs (b0 + b) 0
          (batches.getD b []),
        pw ∈ validate_writes a out_dir bs b0 batches := by
  intro batches
  induction batches with
  | nil => intro b0 b hb; cases (Nat.not_lt_zero b) hb
  | cons batch rest ih =>
    intro b0 b hb pw hpw
    cases b with
    | zero =>
      refine List.mem_append_left _ ?_
      simpa using hpw
    | succ b' =>
      refine List.mem_append_right _ ?_
      refine ih (b0 + 1) b' (by simpa using Nat.lt_of_succ_lt_succ hb) pw ?_
      have : b0 + 1 + b' = b0 + (b' + 1) := by omega
      rw [this]
      simpa using hpw

/-- C8: for the item at position `i` of batch `b` (0-based), `validate`
writes exactly three files, named `<idx>_clean.wav`, `<idx>_noise.wav` and
`<idx>_pred.wav` with `idx = b * bs + i` computed with the configured batch
size `bs`, all joined under `out_dir`; and all three writes belong to the
run's overall output. -/
theorem validate_item_files (a : ℚ) (out_dir : String) (bs : ℕ)
    (batches : List (List (List ℚ × List ℚ × List ℚ))) (b i : ℕ)
    (hb : b < batches.length) (hi : i < (batches.getD b []).length) :
    (validate_item_writes a out_dir bs b i
        ((batches.getD b []).getD i ([], [], []))).map Prod.fst =
      [pjoin out_dir (Nat.repr (b * bs + i) ++ "_clean.wav"),
       pjoin out_dir (Nat.repr (b * bs + i) ++ "_noise.wav"),
       pjoin out_dir (Nat.repr (b * bs + i) ++ "_pred.wav")] ∧
    ∀ pw ∈ validate_item_writes a out_dir bs b i
        ((batches.getD b []).getD i ([], [], [])),
      pw ∈ validate_writes a out_dir bs 0 batches := by
  refine ⟨rfl, ?_⟩
  intro pw hpw
  refine mem_validate_writes a out_dir bs batches 0 b hb pw ?_
  refine mem_validate_batch_writes a out_dir bs (0 + b) ([], [], [])
    (batches.getD b []) 0 i hi pw ?_
  simpa using hpw

/-- C8 witness: with batch size 2, the item at position 1 of batch 0 writes
exactly the files of global index `0 * 2 + 1 = 1`: `1_clean.wav`,
`1_noise.wav` and `1_pred.wav`, and those writes are part of the run's
output. -/
theorem validate_item_files_witness :
    (validate_item_writes (97/100) "out" 2 0 1
        (([[([1], [1], [1]), ([2], [2], [2])]].getD 0 []).getD 1
          ([], [], []))).map Prod.fst =
      [pjoin "out" (Nat.repr (0 * 2 + 1) ++ "_clean.wav"),
       pjoin "out" (Nat.repr (0 * 2 + 1) ++ "_noise.wav"),
       pjoin "out" (Nat.repr (0 * 2 + 1) ++ "_pred.wav")] ∧
    ∀ pw ∈ validate_item_writes (97/100) "out" 2 0 1
        (([[([1], [1], [1]), ([2], [2], [2])]].getD 0 []).getD 1
          ([], [], [])),
      pw ∈ validate_writes (97/100) "out" 2 0
        [[([1], [1], [1]), ([2], [2], [2])]] :=
  validate_item_files (97/100) "out" 2
    [[([1], [1], [1]), ([2], [2], [2])]] 0 1
    (by norm_num) (by norm_num)

theorem getD_zip {α β : Type} (l1 : List α) (l2 : List β) (i : ℕ)
    (d1 : α) (d2 : β) (h1 : i < l1.length) (h2 : i < l2.length) :
    (l1.zip l2).getD i (d1, d2) = (l1.getD i d1, l2.getD i d2) := by
  have hz : i < (l1.zip l2).length := by
    rw [List.length_zip]
    omega
  rw [List.getD_eq_get _ _ hz, List.getD_eq_get _ _ h1,
    List.getD_eq_get _ _ h2]
  simp [List.get_zip]

/-- C9: in validation mode, the item assembled for position `i` of batch
`b` pairs the model output and the pre-emphasized noisy waveform with the
clean waveform exactly as the dataset loader yielded it, and the file
`<idx>_clean.wav` persists that raw clean waveform unchanged — no
pre-emphasis, de-emphasis, truncation or clipping is applied to it. -/
theorem validate_clean_raw (a : ℚ) (model : List (List ℚ) → List (List ℚ))
    (out_dir : String) (bs : ℕ)
    (data : List (List (List ℚ) × List (List ℚ)))
    (hm : ∀ rows, (model rows).length = rows.length)
    (b i : ℕ) (hb : b < data.length)
    (hi1 : i < (data.getD b ([], [])).1.length)
    (hi2 : i < (data.getD b ([], [])).2.length) :
    ((validate_processed a model data).getD b []).getD i ([], [], []) =
      ((model ((data.getD b ([], [])).1.map (preemphasis a))).getD i [],
       preemphasis a ((data.getD b ([], [])).1.getD i []),
       (data.getD b ([], [])).2.getD i []) ∧
    (pjoin out_dir (Nat.repr (b * bs + i) ++ "_clean.wav"),
        (data.getD b ([], [])).2.getD i []) ∈
      validate_writes a out_dir bs 0 (validate_processed a model data) := by
  have hbatch : (validate_processed a model data).getD b [] =
      zip3 (model ((data.getD b ([], [])).1.map (preemphasis a)))
        ((data.getD b ([], [])).1.map (preemphasis a))
        (data.getD b ([], [])).2 := by
    rw [List.getD_eq_get _ _ (by simpa [validate_processed] using hb),
      List.getD_eq_get _ _ hb]
    simp [validate_processed, List.get_map]
  have hzlen : i < (((validate_processed a model data).getD b [])).length := by
    rw [hbatch]
    simp only [zip3, List.length_zip, List.length_map, hm]
    omega
  have hitem : ((validate_processed a model data).getD b []).getD i
      ([], [], []) =
      ((model ((data.getD b ([], [])).1.map (preemphasis a))).getD i [],
       preemphasis a ((data.getD b ([], [])).1.getD i []),
       (data.getD b ([], [])).2.getD i []) := by
    rw [hbatch]
    simp only [zip3]
    have hlen1 : i <
        (model ((data.getD b ([], [])).1.map (preemphasis a))).length := by
      rw [hm, List.length_map]
      exact hi1
    have hlen2 : i < ((data.getD b ([], [])).1.map (preemphasis a)).length := by
      rw [List.length_map]
      exact hi1
    rw [getD_zip _ _ _ _ _ hlen1
        (by rw [List.length_zip, List.length_map]; omega),
      getD_zip _ _ _ _ _ hlen2 hi2]
    have hnp : ((data.getD b ([], [])).1.map (preemphasis a)).getD i [] =
        preemphasis a ((data.getD b ([], [])).1.getD i []) := by
      rw [List.getD_eq_get _ _ hlen2, List.getD_eq_get _ _ hi1]
      exact List.get_map (preemphasis a)
    rw [hnp]
  refine ⟨hitem, ?_⟩
  have hmem : ∀ pw ∈ validate_item_writes a out_dir bs b i
      (((validate_processed a model data).getD b []).getD i ([], [], [])),
      pw ∈ validate_writes a out_dir bs 0 (validate_processed a model data) := by
    intro pw hpw
    refine mem_validate_writes a out_dir bs _ 0 b
      (by simpa [validate_processed] using hb) pw ?_
    refine mem_validate_batch_writes a out_dir bs (0 + b) ([], [], [])
      _ 0 i hzlen pw ?_
    simpa using hpw
  have hhead := hmem
    (pjoin out_dir (Nat.repr (b * bs + i) ++ "_clean.wav"),
      (((validate_processed a model data).getD b []).getD i ([], [], [])).2.2)
    (by simp [validate_item_writes])
  rw [hitem] at hhead
  exact hhead

/-- C9 witness: one batch with one item, identity model — the clean file of
index 0 persists the loader's clean waveform `[3]` as is. -/
theorem validate_clean_raw_witness :
    (pjoin "o" (Nat.repr (0 * 1 + 0) ++ "_clean.wav"),
        (([([[(3 : ℚ)]], [[(3 : ℚ)]])].getD 0 ([], [])).2.getD 0 [])) ∈
      validate_writes (97/100) "o" 1 0
        (validate_processed (97/100) (fun rows => rows)
          [([[(3 : ℚ)]], [[(3 : ℚ)]])]) :=
  (validate_clean_raw (97/100) (fun rows => rows) "o" 1
    [([[(3 : ℚ)]], [[(3 : ℚ)]])] (fun rows => rfl) 0 0
    (by norm_num) (by norm_num) (by norm_num)).2

/-! ## The order of events in `validate` (inference loop, then writes) -/

/-- An observable event of a `validate` run: one forward pass of the
inference loop (by batch index), or one file write. -/
inductive VEvent
  | infer : ℕ → VEvent
  | write : String → List ℚ → VEvent

def VEvent.isWrite : VEvent → Bool
  | infer _ => false
  | write _ _ => true

/-- The event trace of `validate`
(src/source_separation/synthesize.py lines 79-104): the first loop performs
one inference per batch of the loader, accumulating every batch in memory;
only after it has finished does the second loop perform the writes. -/
def validate_trace (a : ℚ) (model : List (List ℚ) → List (List ℚ))
    (out_dir : String) (bs : ℕ)
    (data : List (List (List ℚ) × List (List ℚ))) : List VEvent :=
  (List.range data.length).map VEvent.infer ++
    (validate_writes a out_dir bs 0 (validate_processed a model data)).map
      (fun pw => VEvent.write pw.1 pw.2)

theorem append_write_after_nonwrite {A B : List VEvent}
    (hA : ∀ x ∈ A, x.isWrite = false) (hB : ∀ x ∈ B, x.isWrite = true)
    (i j : ℕ) (hi : i < (A ++ B).length) (hj : j < (A ++ B).length)
    (hwi : ((A ++ B).get ⟨i, hi⟩).isWrite = true)
    (hwj : ((A ++ B).get ⟨j, hj⟩).isWrite = false) : j < i := by
  have hiA : A.length ≤ i := by
    by_contra h
    push_neg at h
    have e : (A ++ B).get ⟨i, hi⟩ = A.get ⟨i, h⟩ := List.get_append i h
    have hfalse : ((A ++ B).get ⟨i, hi⟩).isWrite = false := by
      rw [e]
      exact hA _ (List.get_mem A i h)
    rw [hwi] at hfalse
    exact Bool.noConfusion hfalse
  have hjA : j < A.length := by
    by_contra h
    push_neg at h
    have hjB : j - A.length < B.length := by
      rw [List.length_append] at hj
      omega
    have e : (A ++ B).get ⟨j, hj⟩ = B.get ⟨j - A.length, hjB⟩ :=
      List.get_append_right A B h
    have htrue : ((A ++ B).get ⟨j, hj⟩).isWrite = true := by
      rw [e]
      exact hB _ (List.get_mem B _ hjB)
    rw [hwj] at htrue
    exact Bool.noConfusion htrue
  exact lt_of_lt_of_le hjA hiA

/-- C10: in validation mode no write happens before inference has completed
on every batch: in the event trace, every write event comes strictly after
every inference event. -/
theorem validate_writes_after_inference (a : ℚ)
    (model : List (List ℚ) → List (List ℚ)) (out_dir : String) (bs : ℕ)
    (data : List (List (List ℚ) × List (List ℚ))) (i j : ℕ)
    (hi : i < (validate_trace a model out_dir bs data).length)
    (hj : j < (validate_trace a model out_dir bs data).length)
    (hwi : ((validate_trace a model out_dir bs data).get ⟨i, hi⟩).isWrite
      = true)
    (hwj : ((validate_trace a model out_dir bs data).get ⟨j, hj⟩).isWrite
      = false) : j < i := by
  refine append_write_after_nonwrite ?_ ?_ i j hi hj hwi hwj
  · intro x hx
    obtain ⟨n, -, rfl⟩ := List.mem_map.mp hx
    rfl
  · intro x hx
    obtain ⟨pw, -, rfl⟩ := List.mem_map.mp hx
    rfl

/-- C10 witness: for a single one-item batch with an identity model, the
trace is one inference event followed by three write events; the write at
position 1 comes after the inference at position 0. -/
theorem validate_writes_after_inference_witness : 0 < 1 :=
  validate_writes_after_inference (97/100) (fun rows => rows) "o" 1
    [([[(1 : ℚ)]], [[(1 : ℚ)]])] 1 0 (by decide) (by decide)
    (by decide) (by decide)

end SourceSeparation
